import Mathlib

/-!
Verification of the FSM engine (`fsm.py`).

A shallow embedding of the finite-state-machine engine: `State` objects
(name, accepting flag, integer-keyed transition table), the generic `FSM`
(a registry of named states plus a mutable current-state pointer), and the
`ModThreeFSM` specialization that computes the remainder of a binary
number modulo 3.

Python objects are modelled by an explicit heap: `State` objects live in a
list `Heap` and are referenced by their allocation index (a `Nat` id).
Mutating operations take the heap/machine and return the updated copies
together with an optional error, mirroring Python's raise-before-mutate
discipline: when an error is reported the returned structures equal the
inputs up to the point the exception was raised.
-/

namespace FSMPy

/-- A Python value appearing as an element of the input sequence: either an
`int` or some non-integer object. -/
inductive PyVal where
  | int (z : Int)
  | nonInt
deriving DecidableEq, Repr

/-- The argument shapes `process_three_mod_input` distinguishes: a Python
`list`, other sequence shapes (`tuple`, `str`), or a non-sequence scalar. -/
inductive PyArg where
  | pylist (l : List PyVal)
  | pytuple (l : List PyVal)
  | pystr (s : String)
  | scalar (v : PyVal)
deriving DecidableEq, Repr

/-- Holds for argument shapes that are Python sequences. -/
def PyArg.isSequence : PyArg → Bool
  | .pylist _ => true
  | .pytuple _ => true
  | .pystr _ => true
  | .scalar _ => false

/-- The error kinds raised by the engine (each a `ValueError`/`TypeError`
in the source, distinguished here by their condition). -/
inductive PyErr where
  | invalidName
  | notASequence
  | emptyInput
  | noTransition (stateName : String) (symbol : Int)
  | invalidSymbolType (v : PyVal)
  | invalidSymbolValue (z : Int)
  | duplicateTransition (symbol : Int)
  | duplicateState (name : String)
  | unknownState (name : String)
  | decodeFailure
deriving DecidableEq, Repr

/-- The fields of a Python `State` object.  Transition targets are heap ids;
the transition dict keeps insertion order, keys unique by construction. -/
structure StateData where
  name : String
  is_accepting : Bool
  transitions : List (Int × Nat)
deriving DecidableEq, Repr

/-- The heap of allocated `State` objects; a state's id is its index. -/
abbrev Heap := List StateData

/-- The fields of a Python `FSM` object: the current-state pointer and the
name-keyed state registry (insertion-ordered, names unique). -/
structure Machine where
  current : Nat
  states : List (String × Nat)
deriving DecidableEq, Repr

/-- Dict lookup on a transition table (`self.transitions.get(input_symbol, None)`). -/
def lookupSym : List (Int × Nat) → Int → Option Nat
  | [], _ => none
  | (k, v) :: rest, sym => if k = sym then some v else lookupSym rest sym

/-- Dict lookup on the state registry (`self.states[name]` / `name in self.states`). -/
def lookupName : List (String × Nat) → String → Option Nat
  | [], _ => none
  | (k, v) :: rest, n => if k = n then some v else lookupName rest n

/-- Python `State.__init__`: a fresh state with an empty transition table; raises
`InvalidNameError` when the name is empty. -/
def mkState (name : String) (is_accepting : Bool) : Except PyErr StateData :=
  if name = "" then .error .invalidName else .ok ⟨name, is_accepting, []⟩

/-- Python `State.add_transition`: raises on a duplicate symbol, leaving the object
untouched; otherwise inserts the new entry (dict insertion appends). -/
def addTransition (s : StateData) (sym : Int) (tid : Nat) :
    StateData × Option PyErr :=
  if (lookupSym s.transitions sym).isSome then
    (s, some (.duplicateTransition sym))
  else
    ({ s with transitions := s.transitions ++ [(sym, tid)] }, none)

/-- Python `State.get_next_state`: pure dict lookup, `none` when absent. -/
def getNextOf (s : StateData) (sym : Int) : Option Nat :=
  lookupSym s.transitions sym

/-- Reading `get_next_state` through the heap at a state id. -/
def getNext (h : Heap) (sid : Nat) (sym : Int) : Option Nat :=
  match h.get? sid with
  | some s => getNextOf s sym
  | none => none

/-- The `name` attribute of the state at id `sid`. -/
def stateName (h : Heap) (sid : Nat) : String :=
  match h.get? sid with
  | some s => s.name
  | none => ""

/-- Python `FSM.__init__`: current state is the initial state and the registry
holds exactly it. -/
def mkMachine (initName : String) (initId : Nat) : Machine :=
  ⟨initId, [(initName, initId)]⟩

/-- Python `FSM.add_state`: raises on duplicate name, leaving the registry
untouched; otherwise registers the state under its name. -/
def addState (m : Machine) (name : String) (sid : Nat) :
    Machine × Option PyErr :=
  if (lookupName m.states name).isSome then
    (m, some (.duplicateState name))
  else
    ({ m with states := m.states ++ [(name, sid)] }, none)

/-- Python `FSM.add_transition`: resolves both names in the registry (raising when
either is absent), then delegates to the source state's `add_transition`;
a raise there leaves the heap unchanged. -/
def machineAddTransition (h : Heap) (m : Machine)
    (fromName : String) (sym : Int) (toName : String) :
    Heap × Option PyErr :=
  match lookupName m.states fromName with
  | none => (h, some (.unknownState fromName))
  | some fid =>
    match lookupName m.states toName with
    | none => (h, some (.unknownState toName))
    | some tid =>
      match h.get? fid with
      | none => (h, none)
      | some s =>
        match addTransition s sym tid with
        | (_, some e) => (h, some e)
        | (s', none) => (h.set fid s', none)

/-- The loop body of `FSM.process_input`: starting from state id `cur`,
consume the symbols in order; stop with `NoTransitionError` at the first
symbol with no outgoing edge.  The first component is where the
current-state pointer ends up (Python mutates it every iteration, so on an
exception it stays at the last successfully reached state). -/
def runFrom (h : Heap) (cur : Nat) : List Int → Nat × Except PyErr Nat
  | [] => (cur, .ok cur)
  | sym :: rest =>
    match getNext h cur sym with
    | none => (cur, .error (.noTransition (stateName h cur) sym))
    | some nxt => runFrom h nxt rest

/-- Python `FSM.process_input`: empty input raises before any step; otherwise run
the loop and return the machine with its updated current-state pointer
together with the result (final state id or error). -/
def processInput (h : Heap) (m : Machine) (seq : List Int) :
    Machine × Except PyErr Nat :=
  if seq.isEmpty then (m, .error .emptyInput)
  else
    let r := runFrom h m.current seq
    ({ m with current := r.1 }, r.2)

/-- Python `FSM.is_accepting`: reads the current state's flag; no mutation. -/
def isAccepting (h : Heap) (m : Machine) : Bool :=
  match h.get? m.current with
  | some s => s.is_accepting
  | none => false

/-- Python `State.add_transition` called on the object at heap id `sid`. -/
def heapAddTransition (h : Heap) (sid : Nat) (sym : Int) (tid : Nat) :
    Heap × Option PyErr :=
  match h.get? sid with
  | none => (h, none)
  | some s =>
    let r := addTransition s sym tid
    (h.set sid r.1, r.2)

/-- Turn a value-with-optional-error into `Except` (raise on `some`). -/
def liftOp {α : Type} : α × Option PyErr → Except PyErr α
  | (a, none) => .ok a
  | (_, some e) => .error e

/-! ## The public-API trace semantics

`Reachable h m` holds of the heaps/machines obtainable from `FSM`
construction on a freshly created state by the public operations:
`add_state` (on a freshly created state), `add_transition`, and
`process_input` — each taken with its actual effect, error outcomes
included (`is_accepting` reads without mutating and needs no step). -/

/-- Allocate a fresh `State` and register it with `FSM.add_state`.  The
object is allocated (appended to the heap) even when `add_state` raises on
a duplicate name; an empty name raises in `State.__init__` before any
allocation. -/
def addStateOp (h : Heap) (m : Machine) (name : String) (flag : Bool) :
    Heap × Machine :=
  match mkState name flag with
  | .error _ => (h, m)
  | .ok s => (h ++ [s], (addState m name h.length).1)

/-- Effect of `FSM.add_transition` (heap updated, registry untouched). -/
def addTransitionOp (h : Heap) (m : Machine)
    (fromName : String) (sym : Int) (toName : String) : Heap × Machine :=
  ((machineAddTransition h m fromName sym toName).1, m)

/-- Effect of `FSM.process_input` (current-state pointer updated, also on
the error paths; the heap is read-only here). -/
def processInputOp (h : Heap) (m : Machine) (seq : List Int) :
    Heap × Machine :=
  (h, (processInput h m seq).1)

/-- The heap/machine pairs reachable through the public API, starting from
`FSM.__init__` on a freshly constructed state. -/
inductive Reachable : Heap → Machine → Prop where
  | init (name : String) (flag : Bool) (hn : name ≠ "") :
      Reachable [⟨name, flag, []⟩] (mkMachine name 0)
  | addState {h m} (name : String) (flag : Bool) : Reachable h m →
      Reachable (addStateOp h m name flag).1 (addStateOp h m name flag).2
  | addTransition {h m} (fromName : String) (sym : Int) (toName : String) :
      Reachable h m →
      Reachable (addTransitionOp h m fromName sym toName).1
        (addTransitionOp h m fromName sym toName).2
  | processSeq {h m} (seq : List Int) : Reachable h m →
      Reachable (processInputOp h m seq).1 (processInputOp h m seq).2

/-! ## The `ModThreeFSM` specialization -/

/-- The heap produced by `ModThreeFSM.__init__`: three accepting states
S0/S1/S2 allocated at ids 0/1/2, wired so that on bit `b` state `Sr` moves
to `S((2*r+b) mod 3)` (the table is written out literally, as in the
source). -/
def modThreeHeap : Heap :=
  [⟨"S0", true, [(0, 0), (1, 1)]⟩,
   ⟨"S1", true, [(0, 2), (1, 0)]⟩,
   ⟨"S2", true, [(0, 1), (1, 2)]⟩]

/-- The machine produced by `ModThreeFSM.__init__`: initial (current)
state S0, registry holding S0, S1, S2 in insertion order. -/
def modThreeMachine : Machine :=
  ⟨0, [("S0", 0), ("S1", 1), ("S2", 2)]⟩

/-- The steps of `ModThreeFSM.__init__` run literally: allocate S0, S1, S2
(all accepting), initialize the `FSM` with S0, register S1 and S2, then add
the six transitions by direct `State.add_transition` calls. -/
def mkModThree : Except PyErr (Heap × Machine) := do
  let s0 ← mkState "S0" true
  let s1 ← mkState "S1" true
  let s2 ← mkState "S2" true
  let h : Heap := [s0, s1, s2]
  let m := mkMachine s0.name 0
  let m ← liftOp (addState m s1.name 1)
  let m ← liftOp (addState m s2.name 2)
  let h ← liftOp (heapAddTransition h 0 0 0)
  let h ← liftOp (heapAddTransition h 0 1 1)
  let h ← liftOp (heapAddTransition h 1 0 2)
  let h ← liftOp (heapAddTransition h 1 1 0)
  let h ← liftOp (heapAddTransition h 2 0 1)
  let h ← liftOp (heapAddTransition h 2 1 2)
  return (h, m)

/-- The decimal value of one digit character, `none` otherwise. -/
def digitVal (c : Char) : Option Nat :=
  if '0' ≤ c ∧ c ≤ '9' then some (c.toNat - '0'.toNat) else none

/-- Decimal accumulation over a digit string, `none` at a non-digit. -/
def digitsToNat : List Char → Nat → Option Nat
  | [], acc => some acc
  | c :: cs, acc =>
    match digitVal c with
    | some d => digitsToNat cs (acc * 10 + d)
    | none => none

/-- Python `int(final_state.name[1:])`: drop the first character of the name and
parse the remaining digits (`none` models the `ValueError` of `int` on a
non-numeric string). -/
def decodeRemainder (s : String) : Option Nat :=
  match s.data with
  | [] => none
  | _ :: rest => if rest.isEmpty then none else digitsToNat rest 0

/-- The element-validation loop of `process_three_mod_input`: in order,
each element must be an `int` and equal to 0 or 1; the first offender's
error is raised. -/
def validateSymbols : List PyVal → Option PyErr
  | [] => none
  | .int z :: rest =>
    if z = 0 ∨ z = 1 then validateSymbols rest
    else some (.invalidSymbolValue z)
  | v :: _ => some (.invalidSymbolType v)

/-- The integer held by a validated element. -/
def pyToInt : PyVal → Int
  | .int z => z
  | .nonInt => 0

/-- Python `ModThreeFSM.process_three_mod_input`: reject non-`list` arguments,
validate every element before any transition, delegate to `process_input`,
and decode the final state's name suffix into the remainder.  The returned
machine carries the (possibly advanced) current-state pointer. -/
def processThreeModInput (h : Heap) (m : Machine) (arg : PyArg) :
    Machine × Except PyErr Nat :=
  match arg with
  | .pylist l =>
    match validateSymbols l with
    | some e => (m, .error e)
    | none =>
      match processInput h m (l.map pyToInt) with
      | (m', .ok fid) =>
        match decodeRemainder (stateName h fid) with
        | some r => (m', .ok r)
        | none => (m', .error .decodeFailure)
      | (m', .error e) => (m', .error e)
  | _ => (m, .error .notASequence)

/-- Python `ModThreeFSM.binary_to_decimal`: `sum(bit * 2**idx for idx, bit in
enumerate(reversed(input_sequence)))`. -/
def binaryToDecimal (l : List Int) : Int :=
  (l.reverse.enum.map (fun p => p.2 * 2 ^ p.1)).sum

/-- The left fold of the spec: thread the optional state through
`get_next_state`, `none` once any step is undefined. -/
def foldStep (h : Heap) (c : Nat) (seq : List Int) : Option Nat :=
  seq.foldl (fun acc sym => acc.bind fun s => getNext h s sym) (some c)

/-- An element passes the mod-three validation loop iff it is the integer
0 or the integer 1. -/
def isValidBit : PyVal → Bool
  | .int z => decide (z = 0 ∨ z = 1)
  | .nonInt => false

/-- The first element of the list rejected by the validation loop. -/
def firstInvalid : List PyVal → Option PyVal
  | [] => none
  | v :: rest => if isValidBit v then firstInvalid rest else some v

/-- The error the validation loop raises for an offending element. -/
def invalidErrOf : PyVal → PyErr
  | .int z => .invalidSymbolValue z
  | v => .invalidSymbolType v

/-- A state id appears in the machine's registry. -/
def Registered (m : Machine) (sid : Nat) : Prop :=
  ∃ p ∈ m.states, p.2 = sid

/-- The inductive invariant: the current-state pointer is registered, and
every transition out of a registered state targets a registered state. -/
def WellFormed (h : Heap) (m : Machine) : Prop :=
  Registered m m.current ∧
  ∀ p ∈ m.states, ∀ sd, h.get? p.2 = some sd →
    ∀ e ∈ sd.transitions, Registered m e.2

/-- Running the constructor yields exactly the wired heap and machine. -/
theorem mkModThree_eq : mkModThree = .ok (modThreeHeap, modThreeMachine) := rfl

theorem foldStep_none (h : Heap) (seq : List Int) :
    seq.foldl (fun acc sym => acc.bind fun s => getNext h s sym) none = none := by
  induction seq with
  | nil => rfl
  | cons sym rest ih => simpa using ih

theorem foldStep_cons (h : Heap) (c : Nat) (sym : Int) (rest : List Int) :
    foldStep h c (sym :: rest) =
      match getNext h c sym with
      | some nxt => foldStep h nxt rest
      | none => none := by
  unfold foldStep
  cases hg : getNext h c sym with
  | none => simpa [hg] using foldStep_none h rest
  | some nxt => simp [hg, List.foldl]

theorem runFrom_of_foldStep (h : Heap) (seq : List Int) :
    ∀ c f, foldStep h c seq = some f → runFrom h c seq = (f, .ok f) := by
  induction seq with
  | nil =>
    intro c f hf
    simp only [foldStep, List.foldl, Option.some_inj] at hf
    simp [runFrom, hf]
  | cons sym rest ih =>
    intro c f hf
    rw [foldStep_cons] at hf
    cases hg : getNext h c sym with
    | none => rw [hg] at hf; exact absurd hf (by simp)
    | some nxt =>
      rw [hg] at hf
      simp only [runFrom, hg]
      exact ih nxt f hf

theorem runFrom_fail (h : Heap) (sym : Int) (rest : List Int) :
    ∀ (pre : List Int) (c sk : Nat), foldStep h c pre = some sk →
      getNext h sk sym = none →
      runFrom h c (pre ++ sym :: rest) =
        (sk, .error (.noTransition (stateName h sk) sym)) := by
  intro pre
  induction pre with
  | nil =>
    intro c sk hf hn
    simp only [foldStep, List.foldl, Option.some_inj] at hf
    subst hf
    simp [runFrom, hn]
  | cons s' pre' ih =>
    intro c sk hf hn
    rw [foldStep_cons] at hf
    cases hg : getNext h c s' with
    | none => rw [hg] at hf; exact absurd hf (by simp)
    | some nxt =>
      rw [hg] at hf
      simp only [List.cons_append, runFrom, hg]
      exact ih nxt sk hf hn

/-- C2: for every non-empty integer sequence whose transition path from the
machine's current state is fully defined, `process_input` returns the state
obtained by left-folding the sequence with `step(s, sym) = s.get_next_state(sym)`
from the current state, and afterwards the machine's `current_state` equals
that returned state. -/
theorem process_input_foldl (h : Heap) (m : Machine) (seq : List Int)
    (hne : seq ≠ []) (f : Nat) (hf : foldStep h m.current seq = some f) :
    processInput h m seq = ({ m with current := f }, .ok f) := by
  have hr := runFrom_of_foldStep h seq m.current f hf
  obtain ⟨s, rest, rfl⟩ := List.exists_cons_of_ne_nil hne
  simp [processInput, hr]

theorem process_input_foldl_witness :
    [(1 : Int)] ≠ [] ∧
      processInput modThreeHeap modThreeMachine [1] =
        ({ modThreeMachine with current := 1 }, .ok 1) :=
  ⟨by decide,
   process_input_foldl modThreeHeap modThreeMachine [1] (by decide) 1 (by decide)⟩

/-- C3: when the first `k` symbols have defined transitions but the next
symbol has none from the state reached after them, `process_input` fails
with `NoTransitionError` naming that state and symbol, and the machine's
`current_state` is left at the state reached after the first `k` symbols
(prior progress is kept; the failing symbol does not advance the state). -/
theorem process_input_no_transition (h : Heap) (m : Machine)
    (pre : List Int) (sym : Int) (rest : List Int) (sk : Nat)
    (h1 : foldStep h m.current pre = some sk)
    (h2 : getNext h sk sym = none) :
    processInput h m (pre ++ sym :: rest) =
      ({ m with current := sk },
        .error (.noTransition (stateName h sk) sym)) := by
  have hr := runFrom_fail h sym rest pre m.current sk h1 h2
  have hE : (pre ++ sym :: rest).isEmpty = false := by cases pre <;> rfl
  simp [processInput, hE, hr]

theorem process_input_no_transition_witness :
    foldStep modThreeHeap modThreeMachine.current [1] = some 1 ∧
      getNext modThreeHeap 1 5 = none ∧
      processInput modThreeHeap modThreeMachine [1, 5] =
        ({ modThreeMachine with current := 1 },
          .error (.noTransition "S1" 5)) :=
  ⟨by decide, by decide,
   process_input_no_transition modThreeHeap modThreeMachine [1] 5 [] 1
     (by decide) (by decide)⟩

theorem binaryToDecimal_nil : binaryToDecimal [] = 0 := rfl

theorem binaryToDecimal_cons (b : Int) (l : List Int) :
    binaryToDecimal (b :: l) = b * 2 ^ l.length + binaryToDecimal l := by
  unfold binaryToDecimal
  rw [List.reverse_cons, List.enum_append, List.map_append, List.sum_append]
  simp only [List.enumFrom, List.map_cons, List.map_nil, List.sum_cons,
    List.sum_nil, List.length_reverse, add_zero]
  ring

theorem binaryToDecimal_append (l₁ l₂ : List Int) :
    binaryToDecimal (l₁ ++ l₂) =
      binaryToDecimal l₁ * 2 ^ l₂.length + binaryToDecimal l₂ := by
  induction l₁ with
  | nil => simp [binaryToDecimal_nil]
  | cons b l₁ ih =>
    rw [List.cons_append, binaryToDecimal_cons, ih, binaryToDecimal_cons,
      List.length_append, pow_add]
    ring

/-- C8: `binary_to_decimal` on a bit sequence of length `n` (most
significant bit first) returns exactly `Σ bit[i] * 2 ^ (n - 1 - i)`.  As a
plain function of the list (no machine argument) over unbounded integers,
it is pure and exact at every length, 30-bit sequences included. -/
theorem binary_to_decimal_formula (l : List Int)
    (hb : ∀ b ∈ l, b = 0 ∨ b = 1) :
    binaryToDecimal l =
      ∑ i ∈ Finset.range l.length, l.getD i 0 * 2 ^ (l.length - 1 - i) := by
  clear hb
  induction l with
  | nil => simp [binaryToDecimal_nil]
  | cons b l ih =>
    rw [binaryToDecimal_cons, ih, List.length_cons, Finset.sum_range_succ']
    have e0 : l.length + 1 - 1 - 0 = l.length := by omega
    have hsum : (∑ i ∈ Finset.range l.length,
        (b :: l).getD (i + 1) 0 * 2 ^ (l.length + 1 - 1 - (i + 1))) =
        ∑ i ∈ Finset.range l.length, l.getD i 0 * 2 ^ (l.length - 1 - i) := by
      refine Finset.sum_congr rfl fun i _ => ?_
      rw [List.getD_cons_succ,
        show l.length + 1 - 1 - (i + 1) = l.length - 1 - i from by omega]
    rw [hsum, e0, List.getD_cons_zero]
    ring

theorem binary_to_decimal_formula_witness :
    binaryToDecimal [1, 0, 1, 1, 0, 1, 1, 0, 1, 1] =
      ∑ i ∈ Finset.range (10 : Nat),
        [(1 : Int), 0, 1, 1, 0, 1, 1, 0, 1, 1].getD i 0 * 2 ^ (10 - 1 - i) :=
  binary_to_decimal_formula [1, 0, 1, 1, 0, 1, 1, 0, 1, 1] (by decide)

theorem getNext_modThree (c : Nat) (hc : c < 3) (b : Int)
    (hb : b ∈ ([0, 1] : List Int)) :
    getNext modThreeHeap c b = some ((2 * c + b.toNat) % 3) := by
  revert b hb
  revert c hc
  decide

theorem runFrom_mod3 (bits : List Int) (hb : ∀ b ∈ bits, b = 0 ∨ b = 1) :
    ∀ c : Nat, c < 3 →
      ∃ r : Nat, runFrom modThreeHeap c bits = (r, .ok r) ∧ r < 3 ∧
        (r : Int) = ((c : Int) * 2 ^ bits.length + binaryToDecimal bits) % 3 := by
  induction bits with
  | nil =>
    intro c hc
    refine ⟨c, rfl, hc, ?_⟩
    simp only [binaryToDecimal_nil, List.length_nil, pow_zero, mul_one,
      add_zero]
    omega
  | cons b rest ih =>
    intro c hc
    have hb0 : b = 0 ∨ b = 1 := hb b (List.mem_cons_self b rest)
    have hbmem : b ∈ ([0, 1] : List Int) := by rcases hb0 with rfl | rfl <;> simp
    have hg := getNext_modThree c hc b hbmem
    have hc' : (2 * c + b.toNat) % 3 < 3 := Nat.mod_lt _ (by norm_num)
    obtain ⟨r, hrun, hr3, hval⟩ :=
      ih (fun x hx => hb x (List.mem_cons_of_mem b hx)) ((2 * c + b.toNat) % 3) hc'
    refine ⟨r, ?_, hr3, ?_⟩
    · simp only [runFrom, hg]
      exact hrun
    · have hbn : ((b.toNat : Int)) = b := by
        rcases hb0 with rfl | rfl <;> rfl
      have hcast : (((2 * c + b.toNat) % 3 : Nat) : Int) =
          (2 * (c : Int) + b) % 3 := by
        push_cast [hbn]
        ring_nf
      have hmod : ((2 * (c : Int) + b) % 3 * 2 ^ rest.length +
          binaryToDecimal rest) % 3 =
          ((2 * (c : Int) + b) * 2 ^ rest.length + binaryToDecimal rest) % 3 :=
        Int.ModEq.add_right (binaryToDecimal rest)
          (Int.ModEq.mul_right (2 ^ rest.length)
            (Int.emod_emod_of_dvd (2 * (c : Int) + b) dvd_rfl))
      rw [hval, hcast, binaryToDecimal_cons, List.length_cons, hmod, pow_succ]
      ring_nf

theorem validateSymbols_ok (l : List Int) (hb : ∀ b ∈ l, b = 0 ∨ b = 1) :
    validateSymbols (l.map PyVal.int) = none := by
  induction l with
  | nil => rfl
  | cons b rest ih =>
    have hb0 : b = 0 ∨ b = 1 := hb b (List.mem_cons_self b rest)
    simp only [List.map_cons, validateSymbols, if_pos hb0]
    exact ih fun x hx => hb x (List.mem_cons_of_mem b hx)

theorem map_pyToInt (l : List Int) : (l.map PyVal.int).map pyToInt = l := by
  induction l with
  | nil => rfl
  | cons b rest ih => simp only [List.map_cons, pyToInt, ih]

theorem decode_modThree (r : Nat) (hr : r < 3) :
    decodeRemainder (stateName modThreeHeap r) = some r := by
  revert r hr
  decide

theorem processThreeMod_ok (bits : List Int) (hne : bits ≠ [])
    (hb : ∀ b ∈ bits, b = 0 ∨ b = 1) (c : Nat) (hc : c < 3) :
    ∃ r : Nat,
      processThreeModInput modThreeHeap { modThreeMachine with current := c }
          (.pylist (bits.map PyVal.int)) =
        ({ modThreeMachine with current := r }, .ok r) ∧ r < 3 ∧
        (r : Int) = ((c : Int) * 2 ^ bits.length + binaryToDecimal bits) % 3 := by
  obtain ⟨r, hrun, hr3, hval⟩ := runFrom_mod3 bits hb c hc
  refine ⟨r, ?_, hr3, hval⟩
  have hE : bits.isEmpty = false := by
    cases bits with
    | nil => exact absurd rfl hne
    | cons x xs => rfl
  have hE2 : ((bits.map PyVal.int).map pyToInt).isEmpty = false := by
    rw [map_pyToInt]; exact hE
  simp only [processThreeModInput, validateSymbols_ok bits hb]
  simp only [processInput, hE2, Bool.false_eq_true, if_false]
  simp only [map_pyToInt]
  simp only [hrun, decode_modThree r hr3]

/-- C1: on a freshly constructed `ModThreeFSM` (current state S0), for
every bit sequence of length between 1 and 30 whose elements are all 0 or
1, `process_three_mod_input` returns `binary_to_decimal(seq) % 3`. -/
theorem mod_three_correct (bits : List Int) (h1 : 1 ≤ bits.length)
    (h2 : bits.length ≤ 30) (hb : ∀ b ∈ bits, b = 0 ∨ b = 1) :
    ∃ m' r, processThreeModInput modThreeHeap modThreeMachine
        (.pylist (bits.map PyVal.int)) = (m', .ok r) ∧
      (r : Int) = binaryToDecimal bits % 3 := by
  have hne : bits ≠ [] := by
    intro hnil
    rw [hnil] at h1
    exact absurd h1 (by decide)
  obtain ⟨r, hr, hr3, hval⟩ := processThreeMod_ok bits hne hb 0 (by norm_num)
  refine ⟨{ modThreeMachine with current := r }, r, hr, ?_⟩
  simpa using hval

theorem mod_three_correct_witness :
    ∃ m' r, processThreeModInput modThreeHeap modThreeMachine
        (.pylist ([1, 0].map PyVal.int)) = (m', .ok r) ∧
      (r : Int) = binaryToDecimal [1, 0] % 3 :=
  mod_three_correct [1, 0] (by decide) (by decide) (by decide)

/-- C9: after `ModThreeFSM` construction every state has a transition for
both bits, so on any validated input (a non-empty 0/1 list) the
`NoTransitionError` branch of the delegated `process_input` is unreachable
and the returned remainder lies in {0, 1, 2}, from any registered current
state. -/
theorem mod_three_total :
    (∀ p ∈ modThreeMachine.states, ∀ b : Int, b = 0 ∨ b = 1 →
      (getNext modThreeHeap p.2 b).isSome = true) ∧
    ∀ l : List Int, l ≠ [] → (∀ b ∈ l, b = 0 ∨ b = 1) →
      ∀ c, (∃ p ∈ modThreeMachine.states, p.2 = c) →
      ∃ m' r, processThreeModInput modThreeHeap
          { modThreeMachine with current := c } (.pylist (l.map PyVal.int)) =
        (m', .ok r) ∧ r < 3 := by
  constructor
  · intro p hp b hb
    have hmem : b ∈ ([0, 1] : List Int) := by rcases hb with rfl | rfl <;> simp
    have hc : p.2 < 3 := by fin_cases hp <;> decide
    rw [getNext_modThree p.2 hc b hmem]
    rfl
  · intro l hne hb c hcmem
    obtain ⟨p, hp, rfl⟩ := hcmem
    have hc : p.2 < 3 := by fin_cases hp <;> decide
    obtain ⟨r, hr, hr3, _⟩ := processThreeMod_ok l hne hb p.2 hc
    exact ⟨_, r, hr, hr3⟩

theorem mod_three_total_witness :
    (getNext modThreeHeap 2 1).isSome = true ∧
    ∃ m' r, processThreeModInput modThreeHeap
        { modThreeMachine with current := 1 } (.pylist ([1].map PyVal.int)) =
      (m', .ok r) ∧ r < 3 :=
  ⟨mod_three_total.1 ("S2", 2) (by decide) 1 (by decide),
   mod_three_total.2 [1] (by decide) (by decide) 1 ⟨("S1", 1), by decide, rfl⟩⟩

/-- C10: `process_three_mod_input` does not reset the current state: after
a first call on bit sequence `s1` from the fresh machine, a second call on
`s2` returns `binary_to_decimal(s1 ++ s2) % 3`. -/
theorem mod_three_append (s1 s2 : List Int) (h1 : s1 ≠ []) (h2 : s2 ≠ [])
    (hb1 : ∀ b ∈ s1, b = 0 ∨ b = 1) (hb2 : ∀ b ∈ s2, b = 0 ∨ b = 1) :
    ∃ m1 r1 m2 r2,
      processThreeModInput modThreeHeap modThreeMachine
          (.pylist (s1.map PyVal.int)) = (m1, .ok r1) ∧
      processThreeModInput modThreeHeap m1 (.pylist (s2.map PyVal.int)) =
        (m2, .ok r2) ∧
      (r2 : Int) = binaryToDecimal (s1 ++ s2) % 3 := by
  obtain ⟨r1, hr1, hr13, hv1⟩ := processThreeMod_ok s1 h1 hb1 0 (by norm_num)
  obtain ⟨r2, hr2, hr23, hv2⟩ := processThreeMod_ok s2 h2 hb2 r1 hr13
  refine ⟨_, r1, _, r2, hr1, hr2, ?_⟩
  have hv1' : (r1 : Int) = binaryToDecimal s1 % 3 := by simpa using hv1
  rw [hv2, hv1', binaryToDecimal_append]
  exact Int.ModEq.add_right _
    (Int.ModEq.mul_right _ (Int.emod_emod_of_dvd _ dvd_rfl))

theorem mod_three_append_witness :
    ∃ m1 r1 m2 r2,
      processThreeModInput modThreeHeap modThreeMachine
          (.pylist ([1].map PyVal.int)) = (m1, .ok r1) ∧
      processThreeModInput modThreeHeap m1 (.pylist ([0, 1].map PyVal.int)) =
        (m2, .ok r2) ∧
      (r2 : Int) = binaryToDecimal ([1] ++ [0, 1]) % 3 :=
  mod_three_append [1] [0, 1] (by decide) (by decide) (by decide) (by decide)

/-- C5: each of the 6 registered (state, bit) transitions of the
`ModThreeFSM` targets the state whose name decodes to
`(remainder * 2 + bit) mod 3`, where `remainder` is the decoded identity of
the source state. -/
theorem mod_three_table (s : Nat) (hs : s < 3) (b : Int)
    (hb : b = 0 ∨ b = 1) :
    (getNext modThreeHeap s b).bind
        (fun t => decodeRemainder (stateName modThreeHeap t)) =
      (decodeRemainder (stateName modThreeHeap s)).map
        (fun rs => (rs * 2 + b.toNat) % 3) := by
  interval_cases s <;> rcases hb with rfl | rfl <;> decide

theorem mod_three_table_witness :
    (getNext modThreeHeap 2 1).bind
        (fun t => decodeRemainder (stateName modThreeHeap t)) =
      (decodeRemainder (stateName modThreeHeap 2)).map
        (fun rs => (rs * 2 + (1 : Int).toNat) % 3) :=
  mod_three_table 2 (by decide) 1 (by decide)

theorem lookupSym_append_of_none (l : List (Int × Nat)) (sym : Int)
    (tid : Nat) (h : lookupSym l sym = none) :
    lookupSym (l ++ [(sym, tid)]) sym = some tid := by
  induction l with
  | nil => simp [lookupSym]
  | cons kv rest ih =>
    obtain ⟨k, v⟩ := kv
    simp only [List.cons_append, lookupSym] at h ⊢
    by_cases hk : k = sym
    · rw [if_pos hk] at h
      exact absurd h (by simp)
    · rw [if_neg hk] at h ⊢
      exact ih h

/-- C6: a successful `add_transition(symbol, target)` makes
`get_next_state(symbol)` return exactly that target immediately afterward;
when the symbol already has an entry, `add_transition` fails with the
duplicate-transition error, the state object is unchanged, and the
previously registered target is still returned. -/
theorem add_transition_get_next (s : StateData) (sym : Int) (tid : Nat) :
    (getNextOf s sym = none →
      addTransition s sym tid =
        ({ s with transitions := s.transitions ++ [(sym, tid)] }, none) ∧
      getNextOf (addTransition s sym tid).1 sym = some tid) ∧
    ∀ t0, getNextOf s sym = some t0 →
      addTransition s sym tid = (s, some (.duplicateTransition sym)) ∧
      getNextOf (addTransition s sym tid).1 sym = some t0 := by
  constructor
  · intro hnone
    have hiss : (lookupSym s.transitions sym).isSome = false := by
      rw [show lookupSym s.transitions sym = none from hnone]
      rfl
    constructor
    · simp [addTransition, hiss]
    · simp [addTransition, hiss, getNextOf,
        lookupSym_append_of_none _ _ tid hnone]
  · intro t0 hsome
    have hiss : (lookupSym s.transitions sym).isSome = true := by
      rw [show lookupSym s.transitions sym = some t0 from hsome]
      rfl
    constructor
    · simp [addTransition, hiss]
    · simpa [addTransition, hiss, getNextOf] using hsome

theorem add_transition_get_next_witness :
    (addTransition ⟨"A", false, [(0, 3)]⟩ 1 7 =
        (⟨"A", false, [(0, 3), (1, 7)]⟩, none) ∧
      getNextOf (addTransition ⟨"A", false, [(0, 3)]⟩ 1 7).1 1 = some 7) ∧
    (addTransition ⟨"A", false, [(0, 3)]⟩ 0 9 =
        (⟨"A", false, [(0, 3)]⟩, some (.duplicateTransition 0)) ∧
      getNextOf (addTransition ⟨"A", false, [(0, 3)]⟩ 0 9).1 0 = some 3) :=
  ⟨(add_transition_get_next ⟨"A", false, [(0, 3)]⟩ 1 7).1 rfl,
   (add_transition_get_next ⟨"A", false, [(0, 3)]⟩ 0 9).2 3 rfl⟩

theorem validateSymbols_eq (l : List PyVal) :
    validateSymbols l = (firstInvalid l).map invalidErrOf := by
  induction l with
  | nil => rfl
  | cons v rest ih =>
    cases v with
    | int z =>
      by_cases hz : z = 0 ∨ z = 1
      · simp [validateSymbols, firstInvalid, isValidBit, hz, ih]
      · simp [validateSymbols, firstInvalid, isValidBit, hz, invalidErrOf]
    | nonInt => simp [validateSymbols, firstInvalid, isValidBit, invalidErrOf]

/-- C7: `process_three_mod_input` rejects non-sequence arguments with
`NotASequenceError`, the empty list with `EmptyInputError`, and a list
with an element other than the integers 0 and 1 with an invalid-symbol
error naming the first offending element — in each case before any state
transition, so the returned machine (its `current_state` included) is the
one passed in. -/
theorem mod_three_validation (h : Heap) (m : Machine) :
    (∀ a : PyArg, a.isSequence = false →
      processThreeModInput h m a = (m, .error .notASequence)) ∧
    processThreeModInput h m (.pylist []) = (m, .error .emptyInput) ∧
    ∀ l v, firstInvalid l = some v →
      processThreeModInput h m (.pylist l) = (m, .error (invalidErrOf v)) := by
  refine ⟨?_, rfl, ?_⟩
  · intro a ha
    cases a with
    | pylist l => exact absurd ha (by simp [PyArg.isSequence])
    | pytuple l => rfl
    | pystr s => rfl
    | scalar v => rfl
  · intro l v hv
    have hvs : validateSymbols l = some (invalidErrOf v) := by
      rw [validateSymbols_eq, hv]
      rfl
    simp [processThreeModInput, hvs]

theorem mod_three_validation_witness :
    processThreeModInput modThreeHeap modThreeMachine (.scalar (.int 5)) =
        (modThreeMachine, .error .notASequence) ∧
    processThreeModInput modThreeHeap modThreeMachine (.pylist []) =
        (modThreeMachine, .error .emptyInput) ∧
    processThreeModInput modThreeHeap modThreeMachine
        (.pylist [.int 1, .int 2, .int 1]) =
      (modThreeMachine, .error (.invalidSymbolValue 2)) :=
  ⟨(mod_three_validation modThreeHeap modThreeMachine).1
      (.scalar (.int 5)) rfl,
   (mod_three_validation modThreeHeap modThreeMachine).2.1,
   (mod_three_validation modThreeHeap modThreeMachine).2.2
     [.int 1, .int 2, .int 1] (.int 2) rfl⟩

theorem lookupSym_mem (l : List (Int × Nat)) (sym : Int) (v : Nat)
    (h : lookupSym l sym = some v) : (sym, v) ∈ l := by
  induction l with
  | nil => exact absurd h (by simp [lookupSym])
  | cons kv rest ih =>
    obtain ⟨k, w⟩ := kv
    simp only [lookupSym] at h
    by_cases hk : k = sym
    · rw [if_pos hk] at h
      subst hk
      obtain rfl : w = v := by simpa using h
      exact List.mem_cons_self _ _
    · rw [if_neg hk] at h
      exact List.mem_cons_of_mem _ (ih h)

theorem lookupName_mem (l : List (String × Nat)) (n : String) (v : Nat)
    (h : lookupName l n = some v) : (n, v) ∈ l := by
  induction l with
  | nil => exact absurd h (by simp [lookupName])
  | cons kv rest ih =>
    obtain ⟨k, w⟩ := kv
    simp only [lookupName] at h
    by_cases hk : k = n
    · rw [if_pos hk] at h
      subst hk
      obtain rfl : w = v := by simpa using h
      exact List.mem_cons_self _ _
    · rw [if_neg hk] at h
      exact List.mem_cons_of_mem _ (ih h)

theorem get?_some_lt (h : Heap) (i : Nat) (s : StateData)
    (hg : h.get? i = some s) : i < h.length := by
  by_contra hge
  rw [List.get?_len_le (le_of_not_lt hge)] at hg
  exact absurd hg (by simp)

theorem get?_append_cases (h : Heap) (s : StateData) (i : Nat)
    (sd : StateData) (hg : (h ++ [s]).get? i = some sd) :
    h.get? i = some sd ∨ sd = s := by
  by_cases hi : i < h.length
  · left
    rwa [List.get?_append hi] at hg
  · right
    rw [List.get?_append_right (le_of_not_lt hi)] at hg
    cases hk : i - h.length with
    | zero =>
      rw [hk] at hg
      simpa using hg.symm
    | succ k =>
      rw [hk] at hg
      exact absurd hg (by simp)

theorem registered_append (m : Machine) (q : List (String × Nat)) (c : Nat)
    (sid : Nat) (hr : Registered m sid) :
    Registered { m with current := c, states := m.states ++ q } sid := by
  obtain ⟨p, hp, hps⟩ := hr
  exact ⟨p, List.mem_append_left q hp, hps⟩

theorem wf_heap_extend (h : Heap) (m : Machine) (s : StateData)
    (hs : s.transitions = []) (hw : WellFormed h m) :
    WellFormed (h ++ [s]) m := by
  refine ⟨hw.1, ?_⟩
  intro p hp sd hsd e he
  rcases get?_append_cases h s p.2 sd hsd with hold | rfl
  · exact hw.2 p hp sd hold e he
  · rw [hs] at he
    exact absurd he (by simp)

theorem wf_addStateOp (h : Heap) (m : Machine) (name : String) (flag : Bool)
    (hw : WellFormed h m) :
    WellFormed (addStateOp h m name flag).1 (addStateOp h m name flag).2 := by
  by_cases hn : name = ""
  · simpa [addStateOp, mkState, hn] using hw
  · have hmk : mkState name flag = .ok ⟨name, flag, []⟩ := by
      simp [mkState, hn]
    simp only [addStateOp, hmk]
    cases hdup : (lookupName m.states name).isSome with
    | true =>
      have hA : addState m name h.length =
          (m, some (.duplicateState name)) := by
        simp [addState, hdup]
      rw [hA]
      exact wf_heap_extend h m _ rfl hw
    | false =>
      have hA : addState m name h.length =
          ({ m with states := m.states ++ [(name, h.length)] }, none) := by
        simp [addState, hdup]
      rw [hA]
      constructor
      · exact registered_append m [(name, h.length)] m.current m.current hw.1
      · intro p hp sd hsd e he
        rcases List.mem_append.1 hp with hpold | hpnew
        · rcases get?_append_cases h _ p.2 sd hsd with hold | rfl
          · exact registered_append m [(name, h.length)] m.current e.2
              (hw.2 p hpold sd hold e he)
          · exact absurd he (by simp)
        · have hp2 : p.2 = h.length := by
            have hpn : p = (name, h.length) := by simpa using hpnew
            rw [hpn]
          rw [hp2] at hsd
          have hself : (h ++ [(⟨name, flag, []⟩ : StateData)]).get? h.length =
              some ⟨name, flag, []⟩ := by
            rw [List.get?_append_right (le_refl _)]
            simp
          rw [hself] at hsd
          obtain rfl : StateData.mk name flag [] = sd := Option.some.inj hsd
          exact absurd he (by simp)

theorem machineAddTransition_wf (h : Heap) (m : Machine) (f : String)
    (sym : Int) (t : String) (hw : WellFormed h m) :
    WellFormed (machineAddTransition h m f sym t).1 m := by
  unfold machineAddTransition
  cases hf : lookupName m.states f with
  | none => exact hw
  | some fid =>
    dsimp only
    cases ht : lookupName m.states t with
    | none => exact hw
    | some tid =>
      dsimp only
      cases hs : h.get? fid with
      | none => exact hw
      | some s =>
        dsimp only
        by_cases hdup : (lookupSym s.transitions sym).isSome
        · have hA : addTransition s sym tid =
              (s, some (.duplicateTransition sym)) := by
            simp [addTransition, hdup]
          rw [hA]
          exact hw
        · have hA : addTransition s sym tid =
              ({ s with transitions := s.transitions ++ [(sym, tid)] },
                none) := by
            simp [addTransition, hdup]
          rw [hA]
          refine ⟨hw.1, ?_⟩
          intro p hp sd hsd e he
          by_cases hpf : p.2 = fid
          · rw [hpf] at hsd
            rw [List.get?_set_eq_of_lt _ (get?_some_lt h fid s hs)] at hsd
            obtain rfl : sd =
                { s with transitions := s.transitions ++ [(sym, tid)] } := by
              simpa using hsd.symm
            rcases List.mem_append.1 he with heold | henew
            · refine hw.2 p hp s ?_ e heold
              rw [hpf]
              exact hs
            · obtain rfl : e = (sym, tid) := by simpa using henew
              exact ⟨(t, tid), lookupName_mem m.states t tid ht, rfl⟩
          · rw [List.get?_set_ne _ _ (fun hne => hpf hne.symm)] at hsd
            exact hw.2 p hp sd hsd e he

theorem runFrom_registered (h : Heap) (m : Machine) (hw : WellFormed h m) :
    ∀ (seq : List Int) (c : Nat), Registered m c →
      Registered m (runFrom h c seq).1 := by
  intro seq
  induction seq with
  | nil => exact fun c hc => hc
  | cons sym rest ih =>
    intro c hc
    cases hg : getNext h c sym with
    | none => simpa [runFrom, hg] using hc
    | some nxt =>
      simp only [runFrom, hg]
      apply ih
      obtain ⟨p, hp, hpc⟩ := hc
      unfold getNext at hg
      cases hsd : h.get? c with
      | none =>
        rw [hsd] at hg
        exact absurd hg (by simp)
      | some sd =>
        rw [hsd] at hg
        have hmem : (sym, nxt) ∈ sd.transitions :=
          lookupSym_mem sd.transitions sym nxt hg
        refine hw.2 p hp sd ?_ (sym, nxt) hmem
        rw [hpc]
        exact hsd

theorem wf_processInputOp (h : Heap) (m : Machine) (seq : List Int)
    (hw : WellFormed h m) : WellFormed h (processInput h m seq).1 := by
  unfold processInput
  by_cases he : seq.isEmpty
  · simpa [he] using hw
  · simp only [he, Bool.false_eq_true, if_false, ite_false]
    exact ⟨runFrom_registered h m hw seq m.current hw.1, hw.2⟩

theorem wf_init (name : String) (flag : Bool) :
    WellFormed [⟨name, flag, []⟩] (mkMachine name 0) := by
  constructor
  · exact ⟨(name, 0), by simp [mkMachine], rfl⟩
  · intro p hp sd hsd e he
    have hp' : p = (name, 0) := by simpa [mkMachine] using hp
    rw [hp'] at hsd
    obtain rfl : sd = ⟨name, flag, []⟩ := by simpa using hsd.symm
    exact absurd he (by simp)

theorem reachable_wf (h : Heap) (m : Machine) (hr : Reachable h m) :
    WellFormed h m := by
  induction hr with
  | init name flag hn => exact wf_init name flag
  | addState name flag _ ih => exact wf_addStateOp _ _ name flag ih
  | addTransition f sym t _ ih => exact machineAddTransition_wf _ _ f sym t ih
  | processSeq seq _ ih => exact wf_processInputOp _ _ seq ih

/-- C4: for every machine built through the public API — construction on a
fresh initial state (which the constructor registers automatically),
`add_state`, `add_transition`, and `process_input` with either outcome
(`is_accepting` reads without mutating) — the current-state pointer refers
to a state present in the registry. -/
theorem current_state_registered (h : Heap) (m : Machine)
    (hr : Reachable h m) : ∃ p ∈ m.states, p.2 = m.current :=
  (reachable_wf h m hr).1

theorem current_state_registered_witness :
    ∃ p ∈ (mkMachine "A" 0).states, p.2 = (mkMachine "A" 0).current :=
  current_state_registered _ _ (.init "A" false (by decide))

end FSMPy
